import Mathlib

/-!
Shallow embedding of `src/map_rtf_internal_citations.py` (an RTF-bibliography
internal-citation mapper) together with proofs about the claims of its
specification.  Python strings are modelled as `List Char` (or `List Nat` of
code points where `chr` may produce values outside Lean's `Char` range),
dictionaries as association lists or functions, sets as `Finset`, and
fallible Python code (raising `ValueError`) as `Option`/`Except`.
-/

/-- Python `str.strip()` whitespace predicate (ASCII fragment). -/
def isPySpace (c : Char) : Bool :=
  c = ' ' || c = '\t' || c = '\n' || c = '\x0d' || c.toNat = 11 || c.toNat = 12

/-- Python `str.strip()`: drop whitespace from both ends. -/
def pyStrip (l : List Char) : List Char :=
  ((l.dropWhile isPySpace).reverse.dropWhile isPySpace).reverse

/-- Numeric value of a run of decimal-digit characters (`int` on a digit run). -/
def digitsValC (l : List Char) : Nat :=
  l.foldl (fun a c => 10 * a + (c.toNat - 48)) 0

/-! ### rtf_to_text (lines 24-38)

The converter works on Unicode code points (`List Nat`) because Python's
`chr` can produce surrogate code points that `Char` cannot hold.  Only the
`\u<code>` substitution can fail (Python `chr` raises `ValueError` for a
code point outside `[0, 0x10FFFF]`), so that pass returns an `Option`. -/

/-- Code-point test: decimal digit. -/
def isDigitN (c : Nat) : Bool := 48 ≤ c && c ≤ 57

/-- Code-point test: ASCII letter (`[a-zA-Z]`). -/
def isLetterN (c : Nat) : Bool := (65 ≤ c && c ≤ 90) || (97 ≤ c && c ≤ 122)

/-- Code-point test: hex digit (`[0-9a-fA-F]`). -/
def isHexN (c : Nat) : Bool :=
  (48 ≤ c && c ≤ 57) || (97 ≤ c && c ≤ 102) || (65 ≤ c && c ≤ 70)

/-- Code-point test: regex `\s` (ASCII fragment). -/
def isSpaceN (c : Nat) : Bool :=
  c = 32 || c = 9 || c = 10 || c = 13 || c = 11 || c = 12

/-- Numeric value of a run of decimal-digit code points. -/
def digitsValN (l : List Nat) : Nat :=
  l.foldl (fun a c => 10 * a + (c - 48)) 0

/-- `uni_repl` (lines 26-30): negative codes are shifted by 65536, then
`chr(code)` succeeds iff the result is in `[0, 0x10FFFF]`. -/
def uni_repl (code : Int) : Option Nat :=
  let c : Int := if code < 0 then 65536 + code else code
  if 0 ≤ c ∧ c ≤ 1114111 then some c.toNat else none

/-- `re.sub(r"\\u(-?\d+)\??", uni_repl, rtf)` (line 32), by fuel-indexed
scanning (the fuel, always instantiated with the text length, only makes the
recursion structural).  The trailing `\??` of the pattern is a *lazy*
optional, which at the end of the pattern consumes nothing, so a following
`?` character stays in the text.  `none` models `chr` raising `ValueError`. -/
def rtfPass1F : Nat → List Nat → Option (List Nat)
  | 0, l => some l
  | _ + 1, [] => some []
  | fuel + 1, c :: rest =>
    if c = 92 ∧ rest.head? = some 117 then
      if rest.tail.head? = some 45 ∧ (rest.tail.tail.takeWhile isDigitN) ≠ [] then
        match uni_repl (-(Int.ofNat (digitsValN (rest.tail.tail.takeWhile isDigitN)))) with
        | some cp => (rtfPass1F fuel (rest.tail.tail.dropWhile isDigitN)).map (cp :: ·)
        | none => none
      else if (rest.tail.takeWhile isDigitN) ≠ [] then
        match uni_repl (Int.ofNat (digitsValN (rest.tail.takeWhile isDigitN))) with
        | some cp => (rtfPass1F fuel (rest.tail.dropWhile isDigitN)).map (cp :: ·)
        | none => none
      else
        (rtfPass1F fuel rest).map (c :: ·)
    else
      (rtfPass1F fuel rest).map (c :: ·)

/-- `re.sub(r"\\'[0-9a-fA-F]{2}", "", s)` (line 33): hex escapes removed. -/
def rtfPass2F : Nat → List Nat → List Nat
  | 0, l => l
  | _ + 1, [] => []
  | fuel + 1, c :: rest =>
    match c, rest with
    | 92, 39 :: h1 :: h2 :: rest2 =>
      if isHexN h1 ∧ isHexN h2 then rtfPass2F fuel rest2
      else 92 :: rtfPass2F fuel (39 :: h1 :: h2 :: rest2)
    | _, _ => c :: rtfPass2F fuel rest

/-- `re.sub(r"\\[a-zA-Z]+\d* ?", "", s)` (line 34): control words removed;
the optional trailing space is greedy (consumed when present). -/
def rtfPass3F : Nat → List Nat → List Nat
  | 0, l => l
  | _ + 1, [] => []
  | fuel + 1, c :: rest =>
    if c = 92 ∧ (rest.takeWhile isLetterN) ≠ [] then
      if ((rest.dropWhile isLetterN).dropWhile isDigitN).head? = some 32 then
        rtfPass3F fuel ((rest.dropWhile isLetterN).dropWhile isDigitN).tail
      else
        rtfPass3F fuel ((rest.dropWhile isLetterN).dropWhile isDigitN)
    else c :: rtfPass3F fuel rest

/-- `s.replace("{","").replace("}","")` (line 35). -/
def rtfPass4 (l : List Nat) : List Nat :=
  l.filter (fun c => c ≠ 123 && c ≠ 125)

/-- `re.sub(r"[ \t]+", " ", s)` (line 36). -/
def rtfPass5F : Nat → List Nat → List Nat
  | 0, l => l
  | _ + 1, [] => []
  | fuel + 1, c :: rest =>
    if c = 32 ∨ c = 9 then
      32 :: rtfPass5F fuel (rest.dropWhile (fun x => x = 32 || x = 9))
    else c :: rtfPass5F fuel rest

/-- `re.sub(r"\n\s+", "\n", s)` (line 37). -/
def rtfPass6F : Nat → List Nat → List Nat
  | 0, l => l
  | _ + 1, [] => []
  | fuel + 1, c :: rest =>
    if c = 10 ∧ (rest.takeWhile isSpaceN) ≠ [] then
      10 :: rtfPass6F fuel (rest.dropWhile isSpaceN)
    else c :: rtfPass6F fuel rest

/-- `.strip()` on code points (line 38). -/
def stripN (l : List Nat) : List Nat :=
  ((l.dropWhile isSpaceN).reverse.dropWhile isSpaceN).reverse

/-- `rtf_to_text` (lines 24-38): the five regex passes, brace removal and
final strip, in source order; `none` models the run aborting with an
uncaught `ValueError` from `chr`. -/
def rtf_to_text (rtf : List Nat) : Option (List Nat) :=
  (rtfPass1F rtf.length rtf).map (fun s1 =>
    let s2 := rtfPass2F s1.length s1
    let s3 := rtfPass3F s2.length s2
    let s4 := rtfPass4 s3
    let s5 := rtfPass5F s4.length s4
    let s6 := rtfPass6F s5.length s5
    stripN s6)

/-- Convert a Lean string to the code points it denotes, for concrete inputs. -/
def strN (s : String) : List Nat := s.toList.map Char.toNat

/-! ### split_numbered_refs (lines 41-51)

The pattern is `\[(\d+)\](.*?)(?=\n\\\n\[\d+\]|\n\[\d+\]|$)` with `re.S`.
Because the final lookahead alternative `$` succeeds at the end of the text
(or just before a final newline), the whole pattern matches at every
occurrence of `\[\d+\]`, so `finditer` yields the earliest bracketed integer
at or after the current position, then captures lazily up to the first
position where one of the lookahead alternatives holds. -/

/-- Match `\[(\d+)\]` at the head of the text: the bracketed number and the
remaining text. -/
def parseBracket : List Char → Option (Nat × List Char)
  | [] => none
  | c :: ts =>
    if c = '[' ∧ ts.takeWhile Char.isDigit ≠ [] ∧
        (ts.dropWhile Char.isDigit).head? = some ']' then
      some (digitsValC (ts.takeWhile Char.isDigit), (ts.dropWhile Char.isDigit).tail)
    else none

/-- Leftmost match of `\[(\d+)\]`: the text before the match, the number,
and the text after the closing bracket. -/
def findBracket : List Char → Option (List Char × Nat × List Char)
  | [] => none
  | c :: ts =>
    match parseBracket (c :: ts) with
    | some (n, r) => some ([], n, r)
    | none => (findBracket ts).map (fun q => (c :: q.1, q.2.1, q.2.2))

/-- The zero-width lookahead `(?=\n\\\n\[\d+\]|\n\[\d+\]|$)` at a given
suffix of the text: a newline-backslash-newline artifact followed by a
bracketed number, or a newline followed by a bracketed number, or `$`
(which matches at the end or just before a final newline). -/
def lookAheadB (l : List Char) : Bool :=
  (decide (l.take 3 = ['\n', '\\', '\n']) && (parseBracket (l.drop 3)).isSome) ||
  (decide (l.take 1 = ['\n']) && (parseBracket (l.drop 1)).isSome) ||
  l.isEmpty || decide (l = ['\n'])

/-- The lazy `(.*?)` capture: consume characters until the lookahead holds;
returns the capture and the remaining text (starting at the lookahead). -/
def takeBody : List Char → List Char × List Char
  | [] => ([], [])
  | c :: ts =>
    if lookAheadB (c :: ts) then ([], c :: ts)
    else ((c :: (takeBody ts).1), (takeBody ts).2)

/-- The `finditer` loop of `split_numbered_refs`, fuel-indexed (the fuel is
always the text length; it only makes the recursion structural). -/
def scanRefsF : Nat → List Char → List (Nat × List Char)
  | 0, _ => []
  | fuel + 1, t =>
    match findBracket t with
    | none => []
    | some (_, n, rest) =>
      (n, pyStrip (takeBody rest).1) :: scanRefsF fuel (takeBody rest).2

/-- `split_numbered_refs` (lines 41-51). -/
def split_numbered_refs (t : List Char) : List (Nat × List Char) :=
  scanRefsF t.length t

/-- Number of bracketed integers sitting right after a newline. -/
def countNL : List Char → Nat
  | [] => 0
  | c :: ts =>
    (if c = '\n' ∧ (parseBracket ts).isSome then 1 else 0) + countNL ts

/-- Bracketed-number blocks of a text: bracketed integers at a line-like
position (the start of the text, or right after a newline), the spec's
notion of a reference block. -/
def countBlocks (t : List Char) : Nat :=
  (if (parseBracket t).isSome then 1 else 0) + countNL t

/-- The first bracketed integer of the text (if any) sits at a line-like
position: the formal reading of a valid segmenter input made of blocks. -/
def alignedB (t : List Char) : Bool :=
  match findBracket t with
  | none => true
  | some (p, _, _) => p.isEmpty || p.getLast? = some '\n'

/-! ### extract_title (lines 59-66) -/

/-- Leftmost match of an `o`-quoted span `o([^c]+)c` (regex `re.search`):
the span's contents. -/
def firstSpan (o c : Char) : List Char → Option (List Char)
  | [] => none
  | x :: ts =>
    if x = o ∧ (ts.takeWhile (· ≠ c)) ≠ [] ∧ (ts.dropWhile (· ≠ c)) ≠ [] then
      some (ts.takeWhile (· ≠ c))
    else firstSpan o c ts

/-- `extract_title` (lines 59-66): first curly-quoted span, else first
straight-quoted span, else the first 160 characters, each stripped. -/
def extract_title (s : List Char) : List Char :=
  match firstSpan '“' '”' s with
  | some t => pyStrip t
  | none =>
    match firstSpan '"' '"' s with
    | some t => pyStrip t
    | none => pyStrip (s.take 160)

/-- Modelled from the spec claim's words, for comparison: the first quoted
span of the text, where both a curly-quoted and a straight-quoted span
qualify, whichever starts first. -/
def firstQuotedSpanSpec : List Char → Option (List Char)
  | [] => none
  | x :: ts =>
    if x = '“' ∧ (ts.takeWhile (· ≠ '”')) ≠ [] ∧ (ts.dropWhile (· ≠ '”')) ≠ [] then
      some (ts.takeWhile (· ≠ '”'))
    else if x = '"' ∧ (ts.takeWhile (· ≠ '"')) ≠ [] ∧ (ts.dropWhile (· ≠ '"')) ≠ [] then
      some (ts.takeWhile (· ≠ '"'))
    else firstQuotedSpanSpec ts

/-! ### extract_pub_year (lines 69-73) -/

/-- Regex `\w` (ASCII fragment): letters, digits, underscore. -/
def isWordC (c : Char) : Bool := c.isAlphanum || c = '_'

/-- A `\b` word boundary holds next to this optional character (`none` at
the ends of the text). -/
def boundaryOk : Option Char → Bool
  | some p => ! isWordC p
  | none => true

/-- One attempt of `\b(19|20)\d{2}\b` at the current position, `prev` being
the character just before it (`none` at the start of the text).  Returns the
year value, the last matched character and the rest of the text. -/
def yearTokenAt (prev : Option Char) (l : List Char) : Option (Int × Char × List Char) :=
  match l with
  | d1 :: d2 :: d3 :: d4 :: rest =>
    if ((d1 = '1' ∧ d2 = '9') ∨ (d1 = '2' ∧ d2 = '0')) ∧ d3.isDigit ∧ d4.isDigit
        ∧ boundaryOk prev ∧ boundaryOk rest.head? then
      some (Int.ofNat (digitsValC [d1, d2, d3, d4]), d4, rest)
    else none
  | _ => none

/-- `YEAR_RE.finditer`: all year tokens in order, fuel-indexed (the fuel is
always the text length; it only makes the recursion structural). -/
def yearScanF : Nat → Option Char → List Char → List Int
  | 0, _, _ => []
  | _ + 1, _, [] => []
  | fuel + 1, prev, c :: ts =>
    match yearTokenAt prev (c :: ts) with
    | some (y, d, rest) => y :: yearScanF fuel (some d) rest
    | none => yearScanF fuel (some c) ts

/-- The `"Accessed:"` marker. -/
def accessedMarker : List Char := ['A', 'c', 'c', 'e', 's', 's', 'e', 'd', ':']

/-- `s.split("Accessed:")[0]` (line 71): the text before the first
occurrence of the marker (the whole text if it never occurs). -/
def splitAccessed : List Char → List Char
  | [] => []
  | c :: ts =>
    if accessedMarker.isPrefixOf (c :: ts) then []
    else c :: splitAccessed ts

/-- `extract_pub_year` (lines 69-73): last year token before `"Accessed:"`. -/
def extract_pub_year (s : List Char) : Option Int :=
  (yearScanF (splitAccessed s).length none (splitAccessed s)).getLast?

/-! ### parse_selection (lines 77-105) -/

/-- Tail of a Python integer-literal digit part: digits with single
underscores allowed between digits. -/
def digitTail : List Char → Bool
  | [] => true
  | '_' :: c :: rest => c.isDigit && digitTail rest
  | '_' :: [] => false
  | c :: rest => c.isDigit && digitTail rest

/-- Python `int()` digit part: at least one digit, single underscores
allowed between digits. -/
def digitPartOk : List Char → Bool
  | [] => false
  | c :: rest => c.isDigit && digitTail rest

/-- Python `int(s)` on a string (ASCII model): optional surrounding
whitespace, optional sign, then a digit part; `none` models `ValueError`. -/
def pyInt (l : List Char) : Option Int :=
  match pyStrip l with
  | '+' :: rest =>
    if digitPartOk rest then some (Int.ofNat (digitsValC (rest.filter (· ≠ '_')))) else none
  | '-' :: rest =>
    if digitPartOk rest then some (-(Int.ofNat (digitsValC (rest.filter (· ≠ '_'))))) else none
  | t => if digitPartOk t then some (Int.ofNat (digitsValC (t.filter (· ≠ '_')))) else none

/-- The two failure modes of `parse_selection`: a `ValueError` escaping from
`int()` on a malformed token, and the explicit empty-selection error of
line 104. -/
inductive SelError where
  | malformed : SelError
  | emptySel : SelError
deriving DecidableEq

instance {ε α : Type _} [DecidableEq ε] [DecidableEq α] : DecidableEq (Except ε α) :=
  fun x y =>
    match x, y with
    | .ok a, .ok b => decidable_of_iff (a = b) (by simp)
    | .error e, .error f => decidable_of_iff (e = f) (by simp)
    | .ok _, .error _ => isFalse (fun h => Except.noConfusion h)
    | .error _, .ok _ => isFalse (fun h => Except.noConfusion h)

/-- `sorted` on a set of integers: the ascending list of its elements. -/
def pySorted (s : Finset Int) : List Int :=
  Quotient.liftOn s.val (fun l => l.insertionSort (· ≤ ·))
    (fun a b h => List.eq_of_perm_of_sorted
      (((List.perm_insertionSort _ a).trans h).trans (List.perm_insertionSort _ b).symm)
      (List.sorted_insertionSort _ a) (List.sorted_insertionSort _ b))

/-- One iteration of the token loop of `parse_selection` (lines 90-101):
a dashed range adds every in-range available number, a single integer is
added when available, anything `int()` rejects raises. -/
def selStep (avail : Finset Int) (acc : Finset Int) (p : List Char) :
    Except SelError (Finset Int) :=
  if p.contains '-' then
    match pyInt (p.takeWhile (· ≠ '-')), pyInt ((p.dropWhile (· ≠ '-')).tail) with
    | some ai, some bi => .ok (acc ∪ (Finset.Icc (min ai bi) (max ai bi) ∩ avail))
    | _, _ => .error .malformed
  else
    match pyInt p with
    | some x => .ok (if x ∈ avail then insert x acc else acc)
    | none => .error .malformed

/-- The token list of `parse_selection` (line 89): split the normalized
expression on commas, strip each part, keep the nonempty ones. -/
def selParts (sel : List Char) : List (List Char) :=
  ((((pyStrip sel).map Char.toLower).splitOn ',').map pyStrip).filter (fun p => ¬ p.isEmpty)

/-- `parse_selection` (lines 77-105). -/
def parse_selection (sel : List Char) (avail : Finset Int) : Except SelError (List Int) :=
  if (pyStrip sel).map Char.toLower = ['a', 'l', 'l'] then .ok (pySorted avail)
  else
    match (selParts sel).foldlM (selStep avail) ∅ with
    | .error e => .error e
    | .ok chosen => if chosen = ∅ then .error .emptySel else .ok (pySorted chosen)

/-- A token `int()` rejects (the loop of lines 90-101 raises on it). -/
def badToken (p : List Char) : Bool :=
  if p.contains '-' then
    (pyInt (p.takeWhile (· ≠ '-'))).isNone || (pyInt ((p.dropWhile (· ≠ '-')).tail)).isNone
  else (pyInt p).isNone

/-- The numbers a well-formed token names: a dashed range covers the closed
interval between its endpoints (in either order), a single integer covers
itself. -/
def tokenCovers (p : List Char) (x : Int) : Bool :=
  if p.contains '-' then
    match pyInt (p.takeWhile (· ≠ '-')), pyInt ((p.dropWhile (· ≠ '-')).tail) with
    | some ai, some bi => decide (min ai bi ≤ x) && decide (x ≤ max ai bi)
    | _, _ => false
  else
    match pyInt p with
    | some v => decide (v = x)
    | none => false

/-! ### Resolution results and the graph builder (lines 109-115, 227-279)

Network calls are abstracted as a resolution function from reference number
to the optional `OAWork` the two lookups of lines 217-225 produce. -/

/-- `OAWork` (lines 109-115). -/
structure OAWork where
  id : String
  title : String
  year : Option Int
  doi : String
  referenced_works : List String
deriving DecidableEq

/-- Effective resolution (lines 227-230): a reference is unresolved when no
record came back or the record's identity is empty. -/
def effResolve (resolve : Int → Option OAWork) (n : Int) : Option OAWork :=
  match resolve n with
  | some w => if w.id = "" then none else some w
  | none => none

/-- The synthetic placeholder node id of line 242. -/
def placeholderId (n : Int) : String := "UNRESOLVED_REF_" ++ toString n

/-- `node_id_by_ref[n]` (lines 238-242): the canonical identity when
resolved, else the placeholder. -/
def nodeId (resolve : Int → Option OAWork) (n : Int) : String :=
  match effResolve resolve n with
  | some w => w.id
  | none => placeholderId n

/-- `allowed_node_ids` (lines 244-246): the node ids of the chosen refs. -/
def allowedNodeIds (chosen : List Int) (resolve : Int → Option OAWork) : List String :=
  chosen.map (nodeId resolve)

/-- `ref_by_node_id` (line 245): built by dict insertion over the chosen
refs in order, so a later ref overwrites an earlier one mapped to the same
node id. -/
def refByNodeId (chosen : List Int) (resolve : Int → Option OAWork) (nid : String) :
    Option Int :=
  ((chosen.map (fun n => (nodeId resolve n, n))).reverse.find? (fun q => q.1 = nid)).map (·.2)

/-- `resolved.items()` (lines 210-230): the chosen refs that resolved, in
order, with their records. -/
def resolvedItems (chosen : List Int) (resolve : Int → Option OAWork) :
    List (Int × OAWork) :=
  chosen.filterMap (fun n => (effResolve resolve n).map (fun w => (n, w)))

/-- The edges added to the graph `G` (lines 267-273): for every resolved
reference and every referenced identity, an edge to it when it is an
allowed node id. -/
def graphEdges (chosen : List Int) (resolve : Int → Option OAWork) :
    List (String × String) :=
  (resolvedItems chosen resolve).flatMap (fun p =>
    p.2.referenced_works.filterMap (fun tgt =>
      if tgt ∈ allowedNodeIds chosen resolve then some (nodeId resolve p.1, tgt)
      else none))

/-- `edges_rows` (lines 268-279): the edges table, with endpoints mapped
back to reference numbers through `ref_by_node_id`. -/
def edgesRows (chosen : List Int) (resolve : Int → Option OAWork) :
    List (Option Int × Option Int) :=
  (resolvedItems chosen resolve).flatMap (fun p =>
    p.2.referenced_works.filterMap (fun tgt =>
      if tgt ∈ allowedNodeIds chosen resolve then
        some (refByNodeId chosen resolve (nodeId resolve p.1), refByNodeId chosen resolve tgt)
      else none))

/-! ### ref_map (line 189) and the chronology check (lines 317-328) -/

/-- `ref_map = {n: raw for n, raw in refs}` (line 189): a Python dict
comprehension, where a later pair overwrites an earlier one with the same
key. -/
def ref_map_get (refs : List (Nat × List Char)) : Nat → Option (List Char) :=
  refs.foldl (fun f q => fun m => if m = q.1 then some q.2 else f m) (fun _ => none)

/-- The chronology check (lines 323-328) over the edges table: an edge is a
violation when both years are truthy (Python `if ya and yb`: present and
nonzero) and the citing year is strictly earlier. -/
def violationsOf (yearOf : Int → Option Int) (edges : List (Int × Int)) :
    List (Int × Int × Int × Int) :=
  edges.filterMap (fun e =>
    match yearOf e.1, yearOf e.2 with
    | some ya, some yb =>
      if ya ≠ 0 ∧ yb ≠ 0 ∧ ya < yb then some (e.1, e.2, ya, yb) else none
    | _, _ => none)

/-! ### Concrete example inputs used in the theorems below -/

/-- A resolution outcome where reference 1 resolves to a record citing the
string `"UNRESOLVED_REF_2"` and reference 2 fails to resolve. -/
def rsvEx : Int → Option OAWork := fun n =>
  if n = 1 then some ⟨"W1", "T1", some 2010, "10.1/a", ["UNRESOLVED_REF_2", "W9"]⟩
  else none

/-- A resolution outcome where references 1 and 2 resolve to records `W1`
and `W2`, `W1` citing `W2`. -/
def rsvClean : Int → Option OAWork := fun n =>
  if n = 1 then some ⟨"W1", "T1", some 2010, "", ["W2", "W9"]⟩
  else if n = 2 then some ⟨"W2", "T2", some 2005, "", []⟩
  else none

/-- A resolution outcome where nothing resolves. -/
def rsvNone : Int → Option OAWork := fun _ => none

/-- Years giving one chronology violation on the edge `(1, 2)`. -/
def yearsA : Int → Option Int := fun n =>
  if n = 1 then some 2010 else if n = 2 then some 2015 else none

/-- Years giving no chronology violation on the edge `(1, 2)`. -/
def yearsB : Int → Option Int := fun n =>
  if n = 1 then some 2020 else if n = 2 then some 2015 else none

/-! ## Theorems -/

/-- **C10.** The markup-to-text conversion is not total: a numeric
character-code escape decoding out of range — a non-negative code of
1114112 or more, or a negative code below -65536 after the signed-16-bit
shift — makes `rtf_to_text` raise (return `none`) instead of producing
plain text, while ordinary input converts fine. -/
theorem c10_rtf_to_text_not_total :
    rtf_to_text (strN "\\u1114112 x") = none ∧
    rtf_to_text (strN "\\u-70000 x") = none ∧
    rtf_to_text (strN "[1] T. Author, rtf test.") =
      some (strN "[1] T. Author, rtf test.") := by
  refine ⟨by decide, by decide, by decide⟩

/-- `ref_map_get` is the association-list fold of the dict comprehension;
its lookups return the value of the last pair carrying the key. -/
theorem ref_map_fold_last (refs : List (Nat × List Char)) (f : Nat → Option (List Char))
    (n : Nat) :
    refs.foldl (fun g q => fun m => if m = q.1 then some q.2 else g m) f n =
      ((refs.filter (fun q => q.1 = n)).getLast?).elim (f n) (fun q => some q.2) := by
  induction refs generalizing f with
  | nil => simp
  | cons q rs ih =>
    simp only [List.foldl_cons]
    rw [ih]
    by_cases hq : q.1 = n
    · rw [List.filter_cons, if_pos (decide_eq_true hq), List.getLast?_cons]
      cases hlast : (rs.filter (fun r => r.1 = n)).getLast? with
      | some r => simp [hlast]
      | none => simp [hlast, hq]
    · have hd : decide (q.1 = n) = false := by simp [hq]
      simp only [List.filter_cons, hd, Bool.false_eq_true, if_false]
      cases hlast : (rs.filter (fun r => r.1 = n)).getLast? with
      | some r => simp [hlast]
      | none =>
        simp only [hlast, Option.elim]
        rw [if_neg (fun h : n = q.1 => hq h.symm)]

/-- **C9.** When the segmented document carries the same bracketed `ref_no`
twice, the `ref_no`-to-text dict keeps only the last such block's raw text
(later occurrence overwrites earlier), so downstream extraction for a
duplicated number uses the final occurrence, while the count of references
found (`len(refs)`) still counts every block. -/
theorem c9_duplicate_ref_no_last_wins :
    (∀ (refs : List (Nat × List Char)) (n : Nat),
        ref_map_get refs n = ((refs.filter (fun q => q.1 = n)).getLast?).map (fun q => q.2)) ∧
    split_numbered_refs "[1] alpha\n[1] beta".toList =
      [(1, "alpha".toList), (1, "beta".toList)] ∧
    ref_map_get (split_numbered_refs "[1] alpha\n[1] beta".toList) 1 =
      some "beta".toList ∧
    (split_numbered_refs "[1] alpha\n[1] beta".toList).length = 2 := by
  refine ⟨fun refs n => ?_, by decide, by decide, by decide⟩
  rw [ref_map_get, ref_map_fold_last]
  cases (refs.filter (fun q => q.1 = n)).getLast? with
  | some q => simp
  | none => simp

/-- **C8.** The consistency checker flags an edge as a violation tuple
`(citing, cited, citing_year, cited_year)` iff both endpoints' best-known
years are known and the citing year is strictly earlier than the cited
year.  (Python tests the years with `if ya and yb`, so "known" is modelled
by the hypothesis that recorded years are nonzero, which holds for all
years the pipeline produces: guessed years are 1900-2099 and resolved
years are installed only when truthy.)  The checker only builds this list;
it never removes edges or fails the run. -/
theorem c8_chronology_check (yearOf : Int → Option Int) (edges : List (Int × Int))
    (hy : ∀ n y, yearOf n = some y → y ≠ 0) (a b ya yb : Int) :
    (a, b, ya, yb) ∈ violationsOf yearOf edges ↔
      (a, b) ∈ edges ∧ yearOf a = some ya ∧ yearOf b = some yb ∧ ya < yb := by
  rw [violationsOf, List.mem_filterMap]
  constructor
  · rintro ⟨⟨e1, e2⟩, he, hfe⟩
    cases h1 : yearOf e1 with
    | none => rw [h1] at hfe; simp at hfe
    | some y1 =>
      cases h2 : yearOf e2 with
      | none => rw [h1, h2] at hfe; simp at hfe
      | some y2 =>
        rw [h1, h2] at hfe
        have hfe' : (if y1 ≠ 0 ∧ y2 ≠ 0 ∧ y1 < y2 then some (e1, e2, y1, y2) else none) =
            some (a, b, ya, yb) := hfe
        split at hfe'
        · rename_i hcond
          injection hfe' with h''
          obtain ⟨ha, hb, hya, hyb⟩ : e1 = a ∧ e2 = b ∧ y1 = ya ∧ y2 = yb := by
            simpa [Prod.ext_iff] using h''
          subst ha; subst hb; subst hya; subst hyb
          exact ⟨he, h1, h2, hcond.2.2⟩
        · simp at hfe'
  · rintro ⟨he, h1, h2, hlt⟩
    exact ⟨(a, b), he, by simp [h1, h2, hy a ya h1, hy b yb h2, hlt]⟩

/-- Witness for `c8_chronology_check`: the two example year maps from the
claim, on the single edge `(1, 2)`. -/
theorem c8_chronology_check_witness :
    (1, 2, 2010, 2015) ∈ violationsOf yearsA [(1, 2)] ∧
    violationsOf yearsB [(1, 2)] = [] := by
  constructor
  · refine (c8_chronology_check yearsA [(1, 2)] ?_ 1 2 2010 2015).mpr
      ⟨by decide, by decide, by decide, by decide⟩
    intro n y h
    rw [yearsA] at h
    split_ifs at h
    all_goals injection h with h
    all_goals omega
  · decide

/-- Membership facts for `resolvedItems`: every resolved item is a chosen
reference with its effective resolution. -/
theorem resolvedItems_mem {chosen : List Int} {resolve : Int → Option OAWork}
    {p : Int × OAWork} (h : p ∈ resolvedItems chosen resolve) :
    p.1 ∈ chosen ∧ effResolve resolve p.1 = some p.2 := by
  rw [resolvedItems, List.mem_filterMap] at h
  obtain ⟨n, hn, hmap⟩ := h
  cases hr : effResolve resolve n with
  | none => rw [hr] at hmap; simp at hmap
  | some w =>
    rw [hr] at hmap
    have hp' : (n, w) = p := Option.some.inj hmap
    subst hp'
    exact ⟨hn, hr⟩

/-- A node id of the graph maps back, through `ref_by_node_id`, to some
chosen reference number. -/
theorem refByNodeId_of_mem {chosen : List Int} {resolve : Int → Option OAWork}
    {nid : String} (h : nid ∈ allowedNodeIds chosen resolve) :
    ∃ a, refByNodeId chosen resolve nid = some a ∧ a ∈ chosen := by
  rw [allowedNodeIds, List.mem_map] at h
  obtain ⟨n, hn, hid⟩ := h
  have hmem : (nid, n) ∈ (chosen.map (fun m => (nodeId resolve m, m))).reverse := by
    rw [List.mem_reverse, List.mem_map]
    exact ⟨n, hn, by rw [hid]⟩
  have hsome : ((chosen.map (fun m => (nodeId resolve m, m))).reverse.find?
      (fun q => q.1 = nid)).isSome := by
    rw [List.find?_isSome]
    exact ⟨(nid, n), hmem, by simp⟩
  obtain ⟨q, hq⟩ := Option.isSome_iff_exists.mp hsome
  have hqmem := List.mem_of_find?_eq_some hq
  rw [List.mem_reverse, List.mem_map] at hqmem
  obtain ⟨m, hm, hqm⟩ := hqmem
  refine ⟨q.2, ?_, ?_⟩
  · rw [refByNodeId, hq]
    rfl
  · rw [← hqm]
    exact hm

/-- **C1.** Every edge of the built graph, and every row of the exported
edges table, has both endpoints inside the selected node set: an edge is
only added when the referenced identity is itself a node id of this graph,
so citations to works outside the selection are silently dropped. -/
theorem c1_edges_internal (chosen : List Int) (resolve : Int → Option OAWork) :
    (∀ e ∈ graphEdges chosen resolve,
        e.1 ∈ allowedNodeIds chosen resolve ∧ e.2 ∈ allowedNodeIds chosen resolve) ∧
    (∀ e ∈ edgesRows chosen resolve,
        ∃ a b, e = (some a, some b) ∧ a ∈ chosen ∧ b ∈ chosen) := by
  constructor
  · intro e he
    rw [graphEdges, List.mem_flatMap] at he
    obtain ⟨p, hp, he2⟩ := he
    rw [List.mem_filterMap] at he2
    obtain ⟨tgt, htgt, hif⟩ := he2
    split at hif
    · rename_i hin
      obtain ⟨hchosen, -⟩ := resolvedItems_mem hp
      injection hif with hif'
      subst hif'
      exact ⟨List.mem_map.mpr ⟨p.1, hchosen, rfl⟩, hin⟩
    · exact absurd hif (by simp)
  · intro e he
    rw [edgesRows, List.mem_flatMap] at he
    obtain ⟨p, hp, he2⟩ := he
    rw [List.mem_filterMap] at he2
    obtain ⟨tgt, htgt, hif⟩ := he2
    split at hif
    · rename_i hin
      obtain ⟨hchosen, -⟩ := resolvedItems_mem hp
      obtain ⟨a, ha, hamem⟩ := refByNodeId_of_mem
        (List.mem_map.mpr ⟨p.1, hchosen, rfl⟩ :
          nodeId resolve p.1 ∈ allowedNodeIds chosen resolve)
      obtain ⟨b, hb, hbmem⟩ := refByNodeId_of_mem hin
      injection hif with hif'
      subst hif'
      exact ⟨a, b, by rw [ha, hb], hamem, hbmem⟩
    · exact absurd hif (by simp)

/-- Witness for `c1_edges_internal`: the concrete run where reference 1 is
resolved with a citation hitting reference 2's placeholder id. -/
theorem c1_edges_internal_witness :
    ("W1", "UNRESOLVED_REF_2") ∈ graphEdges [1, 2] rsvEx ∧
    "W1" ∈ allowedNodeIds [1, 2] rsvEx ∧
    "UNRESOLVED_REF_2" ∈ allowedNodeIds [1, 2] rsvEx := by
  have hmem : ("W1", "UNRESOLVED_REF_2") ∈ graphEdges [1, 2] rsvEx := by decide
  have h := (c1_edges_internal [1, 2] rsvEx).1 ("W1", "UNRESOLVED_REF_2") hmem
  exact ⟨hmem, h.1, h.2⟩

/-- **C2, counterexample.** Nothing prevents a resolved record's referenced
identity from lexically coinciding with a synthetic placeholder id: with
reference 1 resolved to a record citing the string `"UNRESOLVED_REF_2"` and
reference 2 unresolved, the builder adds an edge into reference 2's
placeholder node, and the edges table asserts that reference 1 cites
reference 2 — the lexically coinciding citation is *not* dropped, so
synthetic identities are not collision-free by construction. -/
theorem c2_placeholder_collision_cex :
    effResolve rsvEx 2 = none ∧
    nodeId rsvEx 2 = placeholderId 2 ∧
    "UNRESOLVED_REF_2" = placeholderId 2 ∧
    graphEdges [1, 2] rsvEx = [("W1", "UNRESOLVED_REF_2")] ∧
    edgesRows [1, 2] rsvEx = [(some 1, some 2)] := by
  refine ⟨by decide, by decide, by decide, by decide, by decide⟩

/-- **C2, amended.** Placeholder node ids are deterministic in `ref_no`
(stable across runs, independent of how other references resolve), an
unresolved reference's node id is exactly its placeholder, and every edge
originates from the canonical id of a *resolved* reference — so, provided
no resolved identity lexically equals the placeholder id of a chosen
reference, no edge originates from an unresolved reference's placeholder
node.  (Lexical collisions on the *target* side are possible, per the
counterexample.) -/
theorem c2_placeholder_nodes (chosen : List Int) (resolve : Int → Option OAWork) :
    (∀ (resolve2 : Int → Option OAWork) (n : Int),
        effResolve resolve n = none → effResolve resolve2 n = none →
        nodeId resolve n = nodeId resolve2 n) ∧
    (∀ n, effResolve resolve n = none → nodeId resolve n = placeholderId n) ∧
    (∀ e ∈ graphEdges chosen resolve,
        ∃ n w, n ∈ chosen ∧ effResolve resolve n = some w ∧ e.1 = w.id) ∧
    ((∀ n w, n ∈ chosen → effResolve resolve n = some w →
        ∀ m ∈ chosen, w.id ≠ placeholderId m) →
      ∀ e ∈ graphEdges chosen resolve, ∀ m ∈ chosen,
        effResolve resolve m = none → e.1 ≠ placeholderId m) := by
  have hsrc : ∀ e ∈ graphEdges chosen resolve,
      ∃ n w, n ∈ chosen ∧ effResolve resolve n = some w ∧ e.1 = w.id := by
    intro e he
    rw [graphEdges, List.mem_flatMap] at he
    obtain ⟨p, hp, he2⟩ := he
    rw [List.mem_filterMap] at he2
    obtain ⟨tgt, htgt, hif⟩ := he2
    split at hif
    · obtain ⟨hchosen, hres⟩ := resolvedItems_mem hp
      injection hif with hif'
      subst hif'
      exact ⟨p.1, p.2, hchosen, hres, by rw [nodeId, hres]⟩
    · exact absurd hif (by simp)
  refine ⟨?_, ?_, hsrc, ?_⟩
  · intro resolve2 n h1 h2
    rw [nodeId, nodeId, h1, h2]
  · intro n h1
    rw [nodeId, h1]
  · intro hnc e he m hm hmnone
    obtain ⟨n, w, hn, hw, hid⟩ := hsrc e he
    rw [hid]
    exact hnc n w hn hw m hm

/-- Witness for `c2_placeholder_nodes`: a collision-free run where both
references resolve, plus placeholder determinism across two runs. -/
theorem c2_placeholder_nodes_witness :
    nodeId rsvEx 2 = nodeId rsvNone 2 ∧
    nodeId rsvNone 3 = placeholderId 3 ∧
    (∀ e ∈ graphEdges [1, 2] rsvClean, ∀ m ∈ ([1, 2] : List Int),
        effResolve rsvClean m = none → e.1 ≠ placeholderId m) := by
  refine ⟨(c2_placeholder_nodes [] rsvEx).1 rsvNone 2 (by decide) (by decide),
    (c2_placeholder_nodes [] rsvNone).2.1 3 (by decide),
    (c2_placeholder_nodes [1, 2] rsvClean).2.2.2 ?_⟩
  intro n w hn hw m hm
  fin_cases hn <;> fin_cases hm <;>
    first
      | (replace hw := Option.some.inj
            ((by decide : effResolve rsvClean 1 =
              some (⟨"W1", "T1", some 2010, "", ["W2", "W9"]⟩ : OAWork)).symm.trans hw)
         subst hw
         decide)
      | (replace hw := Option.some.inj
            ((by decide : effResolve rsvClean 2 =
              some (⟨"W2", "T2", some 2005, "", []⟩ : OAWork)).symm.trans hw)
         subst hw
         decide)

/-! ### Helper lemmas for quoted-span extraction (C4) -/

/-- The head of a nonempty `dropWhile` residue falsifies the predicate. -/
theorem dropWhile_head_false {p : Char → Bool} {l : List Char} {y : Char} {ys : List Char}
    (h : l.dropWhile p = y :: ys) : p y = false := by
  induction l with
  | nil => simp at h
  | cons c ts ih =>
    rw [List.dropWhile_cons] at h
    split at h
    · exact ih h
    · rename_i hc
      injection h with h1 h2
      cases hpc : p c with
      | false => rw [← h1]; exact hpc
      | true => exact absurd hpc hc

/-- `takeWhile` over an append whose first part satisfies the predicate and
whose next element falsifies it. -/
theorem takeWhile_append_stop {p : Char → Bool} {u : List Char} {y : Char} (r : List Char)
    (hu : ∀ x ∈ u, p x = true) (hy : p y = false) :
    (u ++ y :: r).takeWhile p = u := by
  induction u with
  | nil => simp [List.takeWhile_cons, hy]
  | cons c cs ih =>
    have huc : p c = true := hu c (List.mem_cons_self _ _)
    have ih' := ih (fun x hx => hu x (List.mem_cons_of_mem c hx))
    simp [List.takeWhile_cons, huc, ih']

/-- `dropWhile` over the same shape of append. -/
theorem dropWhile_append_stop {p : Char → Bool} {u : List Char} {y : Char} (r : List Char)
    (hu : ∀ x ∈ u, p x = true) (hy : p y = false) :
    (u ++ y :: r).dropWhile p = y :: r := by
  induction u with
  | nil => simp [List.dropWhile_cons, hy]
  | cons c cs ih =>
    have huc : p c = true := hu c (List.mem_cons_self _ _)
    have ih' := ih (fun x hx => hu x (List.mem_cons_of_mem c hx))
    simp [List.dropWhile_cons, huc, ih']

/-- Soundness of `firstSpan`: a returned span is a nonempty quoted span of
the text, with no closing quote inside. -/
theorem firstSpan_sound {o c : Char} {s t : List Char} (h : firstSpan o c s = some t) :
    (o :: (t ++ [c])) <:+: s ∧ t ≠ [] ∧ ∀ x ∈ t, x ≠ c := by
  induction s with
  | nil => simp [firstSpan] at h
  | cons a ts ih =>
    rw [firstSpan] at h
    split at h
    · rename_i hcond
      obtain ⟨ha, htw, hdw⟩ := hcond
      injection h with h'
      obtain ⟨y, ys, hy⟩ : ∃ y ys, ts.dropWhile (· ≠ c) = y :: ys := by
        cases hd : ts.dropWhile (· ≠ c) with
        | nil => exact absurd hd hdw
        | cons y ys => exact ⟨y, ys, rfl⟩
      have hyc : y = c := by
        have hfalse := dropWhile_head_false hy
        have : ¬ (y ≠ c) := of_decide_eq_false hfalse
        exact not_not.mp this
      have hy2 : ts.dropWhile (· ≠ c) = c :: ys := by
        rw [hy, hyc]
      have hts : t ++ c :: ys = ts := by
        rw [← h', ← hy2, List.takeWhile_append_dropWhile]
      refine ⟨⟨[], ys, ?_⟩, ?_, ?_⟩
      · rw [List.nil_append]
        have : a :: ts = (o :: (t ++ [c])) ++ ys := by
          rw [ha, ← hts]
          simp
        rw [this]
      · rw [← h']
        exact htw
      · intro z hz
        have hz2 : z ∈ ts.takeWhile (· ≠ c) := by rw [h']; exact hz
        exact of_decide_eq_true
          (@List.mem_takeWhile_imp Char (fun x => decide (x ≠ c)) ts z hz2)
    · have := ih h
      exact ⟨List.infix_cons this.1, this.2⟩

/-- Completeness of `firstSpan`: when it finds nothing, the text holds no
nonempty quoted span free of inner closing quotes. -/
theorem firstSpan_complete {o c : Char} {s : List Char} (h : firstSpan o c s = none)
    (u : List Char) (hu : u ≠ []) (hnc : ∀ x ∈ u, x ≠ c) :
    ¬ ((o :: (u ++ [c])) <:+: s) := by
  induction s with
  | nil =>
    intro hinf
    rw [List.infix_nil] at hinf
    simp at hinf
  | cons a ts ih =>
    rw [firstSpan] at h
    split at h
    · exact absurd h (by simp)
    · rename_i hcond
      intro hinf
      rw [List.infix_cons_iff] at hinf
      rcases hinf with hpre | hinf2
      · rw [List.cons_prefix_cons] at hpre
        obtain ⟨hoa, hpre2⟩ := hpre
        obtain ⟨r, hr⟩ := hpre2
        have hr' : u ++ c :: r = ts := by
          rw [← hr]
          simp
        have hup : ∀ x ∈ u, (fun z => decide (z ≠ c)) x = true :=
          fun x hx => decide_eq_true (hnc x hx)
        have hcp : (fun z => decide (z ≠ c)) c = false := by simp
        have htw : ts.takeWhile (· ≠ c) = u := by
          rw [← hr']
          exact takeWhile_append_stop r hup hcp
        have hdw : ts.dropWhile (· ≠ c) = c :: r := by
          rw [← hr']
          exact dropWhile_append_stop r hup hcp
        refine hcond ⟨hoa.symm, ?_, ?_⟩
        · rw [htw]; exact hu
        · rw [hdw]; simp
      · exact ih h hinf2

/-- **C4, counterexample.** The extractor tries the curly-quote pattern
before the straight-quote pattern, so on a text whose *first* quoted span
is straight-quoted and which also holds a later curly-quoted span, it does
not return the first quoted span: the claim's "first quoted span in the
text" reading is refuted. -/
theorem c4_first_quoted_span_cex :
    extract_title "he said \"A\" and “B” end".toList = ['B'] ∧
    firstQuotedSpanSpec "he said \"A\" and “B” end".toList = some ['A'] ∧
    extract_title "he said \"A\" and “B” end".toList ≠
      pyStrip ['A'] := by
  refine ⟨by decide, by decide, by decide⟩

/-- **C4, amended.** The title extractor returns the first *curly*-quoted
span when one exists; only otherwise the first straight-quoted span; and
only when the text holds no quoted span of either kind, the first 160
characters of the raw text, trimmed.  Each returned span is a genuine
nonempty quoted span of the text, and a `none` answer of the span scanner
really means no such span exists. -/
theorem c4_title_extraction (s : List Char) :
    (∀ t, firstSpan '“' '”' s = some t →
        extract_title s = pyStrip t ∧ ('“' :: (t ++ ['”'])) <:+: s ∧ t ≠ [] ∧
          ∀ x ∈ t, x ≠ '”') ∧
    (firstSpan '“' '”' s = none →
      (∀ u, u ≠ [] → (∀ x ∈ u, x ≠ '”') → ¬ (('“' :: (u ++ ['”'])) <:+: s)) ∧
      (∀ t, firstSpan '"' '"' s = some t →
          extract_title s = pyStrip t ∧ ('"' :: (t ++ ['"'])) <:+: s ∧ t ≠ [] ∧
            ∀ x ∈ t, x ≠ '"') ∧
      (firstSpan '"' '"' s = none →
        (∀ u, u ≠ [] → (∀ x ∈ u, x ≠ '"') → ¬ (('"' :: (u ++ ['"'])) <:+: s)) ∧
        extract_title s = pyStrip (s.take 160))) := by
  constructor
  · intro t ht
    have hs := firstSpan_sound ht
    exact ⟨by rw [extract_title, ht], hs⟩
  · intro hc
    refine ⟨fun u hu hnc => firstSpan_complete hc u hu hnc, ?_, ?_⟩
    · intro t ht
      have hs := firstSpan_sound ht
      exact ⟨by rw [extract_title, hc, ht], hs⟩
    · intro hq
      exact ⟨fun u hu hnc => firstSpan_complete hq u hu hnc,
        by rw [extract_title, hc, hq]⟩

/-- Witness for `c4_title_extraction`: a text with a curly span, and a text
with only a straight span. -/
theorem c4_title_extraction_witness :
    extract_title "x “B” y".toList = pyStrip ['B'] ∧
    ('“' :: (['B'] ++ ['”'])) <:+: "x “B” y".toList ∧
    extract_title "p \"A\" q".toList = pyStrip ['A'] := by
  have h1 := (c4_title_extraction "x “B” y".toList).1 ['B'] (by decide)
  have h2 := ((c4_title_extraction "p \"A\" q".toList).2 (by decide)).2.1 ['A'] (by decide)
  exact ⟨h1.1, h1.2.1, h2.1⟩

/-! ### Helper lemmas for the "Accessed:" cut (C7) -/

/-- `"Accessed:"` does not overlap itself: no proper nonempty suffix-drop of
the marker is a prefix of the marker. -/
theorem accessed_no_overlap :
    ∀ d, 0 < d → d < 9 → ¬ (accessedMarker.drop d <+: accessedMarker) := by
  intro d h1 h2
  interval_cases d <;> decide

/-- Without an occurrence of the marker, the cut returns the text whole. -/
theorem splitAccessed_of_not_infix {s : List Char} (h : ¬ accessedMarker <:+: s) :
    splitAccessed s = s := by
  induction s with
  | nil => rw [splitAccessed]
  | cons c ts ih =>
    rw [splitAccessed]
    rw [if_neg]
    · rw [ih]
      intro hinf
      exact h (List.infix_cons hinf)
    · intro hpre
      rw [List.isPrefixOf_iff_prefix] at hpre
      exact h hpre.isInfix

/-- The cut stops exactly at an appended marker when the text before it
does not contain the marker. -/
theorem splitAccessed_append {s : List Char} (t : List Char)
    (h : ¬ accessedMarker <:+: s) :
    splitAccessed (s ++ accessedMarker ++ t) = s := by
  induction s with
  | nil =>
    rw [List.nil_append]
    rw [show accessedMarker ++ t = 'A' :: ("ccessed:".toList ++ t) from rfl]
    rw [splitAccessed, if_pos]
    rw [List.isPrefixOf_iff_prefix]
    exact ⟨t, rfl⟩
  | cons c s ih =>
    rw [List.cons_append, List.cons_append, splitAccessed, if_neg]
    · rw [ih (fun hinf => h (List.infix_cons hinf))]
    · rw [List.isPrefixOf_iff_prefix]
      intro hpre
      rw [List.prefix_iff_eq_take] at hpre
      rw [show accessedMarker.length = 9 from rfl] at hpre
      rw [← List.cons_append, ← List.cons_append, List.append_assoc,
        List.take_append_eq_append_take] at hpre
      by_cases hlen : 9 ≤ (c :: s).length
      · have h9 : 9 - (c :: s).length = 0 := by omega
        rw [h9, List.take_zero, List.append_nil] at hpre
        have : accessedMarker <+: (c :: s) := hpre ▸ List.take_prefix _ _
        exact h this.isInfix
      · have hcs : (c :: s).take 9 = c :: s :=
          List.take_of_length_le (by omega)
        rw [hcs] at hpre
        have hj1 : 1 ≤ 9 - (c :: s).length := by simp at hlen ⊢; omega
        have hj2 : 9 - (c :: s).length ≤ 9 := by omega
        have htk : (accessedMarker ++ t).take (9 - (c :: s).length) =
            accessedMarker.take (9 - (c :: s).length) := by
          rw [List.take_append_eq_append_take]
          rw [show (9 - (c :: s).length) - accessedMarker.length = 0 from by
            rw [show accessedMarker.length = 9 from rfl]; omega]
          rw [List.take_zero, List.append_nil]
        rw [htk] at hpre
        have hdrop : accessedMarker.drop (c :: s).length =
            accessedMarker.take (9 - (c :: s).length) := by
          conv_lhs => rw [hpre]
          rw [List.drop_left]
        have hpref : accessedMarker.drop (c :: s).length <+: accessedMarker :=
          hdrop ▸ List.take_prefix _ _
        exact accessed_no_overlap (c :: s).length (by simp) (by omega) hpref

/-- **C7.** The year extractor considers only year tokens appearing before
the `"Accessed:"` marker: appending `"Accessed:"` and arbitrary further
text (such as an access date) to a marker-free text does not change the
extracted publication year, which is the last `\b(19|20)\d{2}\b` token of
the marker-free part (and `none` when there is no such token). -/
theorem c7_year_ignores_accessed (s t : List Char) (h : ¬ accessedMarker <:+: s) :
    extract_pub_year (s ++ accessedMarker ++ t) = extract_pub_year s := by
  rw [extract_pub_year, extract_pub_year, splitAccessed_append t h,
    splitAccessed_of_not_infix h]

/-- Witness for `c7_year_ignores_accessed`: the claim's example — the 2019
before the marker wins, the 2024 of the access date is ignored. -/
theorem c7_year_ignores_accessed_witness :
    ¬ (accessedMarker <:+: "cited 2019 paper ".toList) ∧
    extract_pub_year ("cited 2019 paper ".toList ++ accessedMarker ++
      " 2024-01-01".toList) = some 2019 := by
  refine ⟨by decide, ?_⟩
  rw [c7_year_ignores_accessed _ _ (by decide)]
  decide

/-! ### Helper lemmas for selection parsing (C5, C6) -/

/-- `pySorted` really is sorted. -/
theorem pySorted_sorted (s : Finset Int) : (pySorted s).Sorted (· ≤ ·) := by
  rw [pySorted]
  induction s.val using Quotient.inductionOn with
  | h l => exact List.sorted_insertionSort _ l

/-- `pySorted` has exactly the set's elements. -/
theorem pySorted_mem (s : Finset Int) (x : Int) : x ∈ pySorted s ↔ x ∈ s := by
  rw [pySorted, Finset.mem_def]
  induction s.val using Quotient.inductionOn with
  | h l =>
    have h1 : x ∈ l.insertionSort (· ≤ ·) ↔ x ∈ l :=
      (List.perm_insertionSort (· ≤ ·) l).mem_iff
    exact h1.trans (Multiset.mem_coe).symm

/-- A successful token step only adds available numbers. -/
theorem selStep_subset {avail acc res : Finset Int} {p : List Char}
    (h : selStep avail acc p = .ok res) : res ⊆ acc ∪ avail := by
  rw [selStep] at h
  split at h
  · cases hA : pyInt (p.takeWhile (· ≠ '-')) with
    | none => rw [hA] at h; exact absurd h (by simp)
    | some ai =>
      cases hB : pyInt ((p.dropWhile (· ≠ '-')).tail) with
      | none => rw [hA, hB] at h; exact absurd h (by simp)
      | some bi =>
        rw [hA, hB] at h
        injection h with h'
        subst h'
        intro x hx
        rw [Finset.mem_union] at hx ⊢
        rcases hx with hx | hx
        · exact Or.inl hx
        · exact Or.inr (Finset.mem_of_mem_inter_right hx)
  · cases hv : pyInt p with
    | none => rw [hv] at h; exact absurd h (by simp)
    | some v =>
      rw [hv] at h
      injection h with h'
      subst h'
      intro x hx
      rw [Finset.mem_union]
      by_cases hva : v ∈ avail
      · rw [if_pos hva, Finset.mem_insert] at hx
        rcases hx with hx | hx
        · exact Or.inr (hx ▸ hva)
        · exact Or.inl hx
      · rw [if_neg hva] at hx
        exact Or.inl hx

/-- A token the loop accepts contributes exactly the available numbers it
covers. -/
theorem selStep_good {avail acc : Finset Int} {p : List Char}
    (h : badToken p = false) :
    selStep avail acc p = .ok (acc ∪ avail.filter (fun x => tokenCovers p x)) := by
  rw [badToken] at h
  rw [selStep]
  by_cases hc : p.contains '-'
  · rw [if_pos hc] at h ⊢
    cases hA : pyInt (p.takeWhile (· ≠ '-')) with
    | none => rw [hA] at h; simp at h
    | some ai =>
      cases hB : pyInt ((p.dropWhile (· ≠ '-')).tail) with
      | none => rw [hA, hB] at h; simp at h
      | some bi =>
        show Except.ok (acc ∪ (Finset.Icc (min ai bi) (max ai bi) ∩ avail)) =
          Except.ok (acc ∪ avail.filter (fun x => tokenCovers p x))
        congr 1
        ext x
        simp only [Finset.mem_union, Finset.mem_inter, Finset.mem_Icc, Finset.mem_filter,
          tokenCovers, hc, hA, hB, if_true, Bool.and_eq_true, decide_eq_true_eq]
        tauto
  · rw [if_neg hc] at h ⊢
    cases hv : pyInt p with
    | none => rw [hv] at h; simp at h
    | some v =>
      show Except.ok (if v ∈ avail then insert v acc else acc) =
        Except.ok (acc ∪ avail.filter (fun x => tokenCovers p x))
      congr 1
      ext x
      have htc : ∀ y, tokenCovers p y = decide (v = y) := by
        intro y
        rw [tokenCovers, if_neg hc, hv]
      simp only [Finset.mem_union, Finset.mem_filter, htc, decide_eq_true_eq]
      by_cases hva : v ∈ avail
      · rw [if_pos hva, Finset.mem_insert]
        constructor
        · intro hx
          rcases hx with hx | hx
          · exact Or.inr ⟨hx ▸ hva, hx.symm⟩
          · exact Or.inl hx
        · intro hx
          rcases hx with hx | ⟨hxa, hxv⟩
          · exact Or.inr hx
          · exact Or.inl hxv.symm
      · rw [if_neg hva]
        constructor
        · exact Or.inl
        · intro hx
          rcases hx with hx | ⟨hxa, hxv⟩
          · exact hx
          · exact absurd (hxv ▸ hxa) hva

/-- A token `int()` rejects makes the step raise `ValueError`. -/
theorem selStep_bad {avail acc : Finset Int} {p : List Char}
    (h : badToken p = true) :
    selStep avail acc p = .error .malformed := by
  rw [badToken] at h
  rw [selStep]
  by_cases hc : p.contains '-'
  · rw [if_pos hc] at h ⊢
    cases hA : pyInt (p.takeWhile (· ≠ '-')) with
    | none => rfl
    | some ai =>
      cases hB : pyInt ((p.dropWhile (· ≠ '-')).tail) with
      | none => rfl
      | some bi => rw [hA, hB] at h; simp at h
  · rw [if_neg hc] at h ⊢
    cases hv : pyInt p with
    | none => rfl
    | some v => rw [hv] at h; simp at h

/-- The token loop with a rejected token somewhere raises `ValueError`. -/
theorem foldSel_bad {avail : Finset Int} :
    ∀ (parts : List (List Char)) (acc : Finset Int),
      (∃ p ∈ parts, badToken p = true) →
      parts.foldlM (selStep avail) acc = .error .malformed := by
  intro parts
  induction parts with
  | nil =>
    intro acc h
    obtain ⟨p, hp, -⟩ := h
    simp at hp
  | cons p ps ih =>
    intro acc h
    rw [List.foldlM_cons]
    cases hbp : badToken p with
    | true => rw [selStep_bad hbp]; rfl
    | false =>
      rw [selStep_good hbp]
      show ps.foldlM (selStep avail) _ = _
      obtain ⟨q, hq, hbad⟩ := h
      rcases List.mem_cons.mp hq with hq1 | hq2
      · rw [hq1] at hbad; rw [hbad] at hbp; exact absurd hbp (by simp)
      · exact ih _ ⟨q, hq2, hbad⟩

/-- The token loop with only accepted tokens returns the accumulated set
plus all available numbers covered by some token. -/
theorem foldSel_good {avail : Finset Int} :
    ∀ (parts : List (List Char)) (acc : Finset Int),
      (∀ p ∈ parts, badToken p = false) →
      parts.foldlM (selStep avail) acc =
        .ok (acc ∪ avail.filter (fun x => parts.any (fun p => tokenCovers p x))) := by
  intro parts
  induction parts with
  | nil =>
    intro acc h
    rw [List.foldlM_nil]
    congr 1
    ext x
    simp
  | cons p ps ih =>
    intro acc h
    rw [List.foldlM_cons, selStep_good (h p (List.mem_cons_self _ _))]
    show ps.foldlM (selStep avail) _ = _
    rw [ih _ (fun q hq => h q (List.mem_cons_of_mem p hq))]
    congr 1
    ext x
    simp only [Finset.mem_union, Finset.mem_filter, List.any_cons, Bool.or_eq_true]
    tauto

/-- The fold of the token loop never grows beyond the availability set. -/
theorem foldSel_subset {avail : Finset Int} :
    ∀ (parts : List (List Char)) (acc res : Finset Int),
      parts.foldlM (selStep avail) acc = .ok res → res ⊆ acc ∪ avail := by
  intro parts
  induction parts with
  | nil =>
    intro acc res h
    rw [List.foldlM_nil] at h
    injection h with h'
    subst h'
    exact Finset.subset_union_left
  | cons p ps ih =>
    intro acc res h
    rw [List.foldlM_cons] at h
    cases hstep : selStep avail acc p with
    | error e => rw [hstep] at h; exact absurd h (by simp [Bind.bind, Except.bind])
    | ok acc2 =>
      rw [hstep] at h
      have h2 : ps.foldlM (selStep avail) acc2 = .ok res := h
      intro x hx
      have hsub := ih acc2 res h2 hx
      rw [Finset.mem_union] at hsub ⊢
      rcases hsub with h3 | h3
      · have h4 := selStep_subset hstep h3
        rw [Finset.mem_union] at h4
        exact h4
      · exact Or.inr h3

/-- **C5.** The selection resolver maps `"all"` to the sorted available
set, accepts comma-separated integers and order-insensitive dashed ranges,
silently ignores numbers outside the available set, and returns a sorted
list drawn from the available set; in particular the three example
selections of the claim evaluate as stated. -/
theorem c5_parse_selection_behavior :
    (∀ avail : Finset Int, parse_selection "all".toList avail = .ok (pySorted avail)) ∧
    (∀ (sel : List Char) (avail : Finset Int) (out : List Int),
        parse_selection sel avail = .ok out →
        out.Sorted (· ≤ ·) ∧ ∀ x ∈ out, x ∈ avail) ∧
    parse_selection "1,3,5-9,12".toList ({1,2,3,4,5,6,7,8,9,10,11,12} : Finset Int) =
      .ok [1,3,5,6,7,8,9,12] ∧
    parse_selection "all".toList ({2,4,9} : Finset Int) = .ok [2,4,9] ∧
    parse_selection "9-5".toList ({5,6,7,8,9} : Finset Int) = .ok [5,6,7,8,9] := by
  refine ⟨?_, ?_, by decide, by decide, by decide⟩
  · intro avail
    rw [parse_selection, if_pos (by decide)]
  · intro sel avail out h
    rw [parse_selection] at h
    split at h
    · injection h with h'
      subst h'
      exact ⟨pySorted_sorted avail, fun x hx => (pySorted_mem avail x).mp hx⟩
    · cases hf : (selParts sel).foldlM (selStep avail) ∅ with
      | error e => rw [hf] at h; exact absurd h (by simp)
      | ok chosen =>
        rw [hf] at h
        have h2 : (if chosen = ∅ then (.error .emptySel : Except SelError (List Int))
            else .ok (pySorted chosen)) = .ok out := h
        split at h2
        · exact absurd h2 (by simp)
        · injection h2 with h'
          subst h'
          refine ⟨pySorted_sorted chosen, fun x hx => ?_⟩
          have hmem := (pySorted_mem chosen x).mp hx
          have hsub := foldSel_subset (selParts sel) ∅ chosen hf hmem
          rw [Finset.empty_union] at hsub
          exact hsub

/-- Witness for `c5_parse_selection_behavior`: sortedness and availability
of a concrete successful parse. -/
theorem c5_parse_selection_behavior_witness :
    parse_selection "1,2".toList ({1, 2, 3} : Finset Int) = .ok [1, 2] ∧
    ([1, 2] : List Int).Sorted (· ≤ ·) ∧
    ∀ x ∈ ([1, 2] : List Int), x ∈ ({1, 2, 3} : Finset Int) := by
  have h := c5_parse_selection_behavior.2.1 "1,2".toList {1, 2, 3} [1, 2] (by decide)
  exact ⟨by decide, h.1, h.2⟩

/-- **C6, counterexample.** For the expression `"all"` with an empty
available set the resulting chosen set is empty, yet the resolver returns
the empty list instead of raising the selection error: the error is not
raised "exactly when the resulting chosen set is empty". -/
theorem c6_all_empty_cex :
    parse_selection "all".toList (∅ : Finset Int) = .ok [] := by decide

/-- **C6, amended.** For every selection expression other than `"all"`
(after strip/lowercase), the resolver raises the empty-selection error
exactly when every token is accepted by `int()` and no available number is
covered by any token, and it raises a fatal `ValueError` exactly when some
token is malformed (`"all"` itself never errors: it returns the available
set, empty or not, per the counterexample). -/
theorem c6_selection_errors (sel : List Char) (avail : Finset Int)
    (hne : (pyStrip sel).map Char.toLower ≠ ['a', 'l', 'l']) :
    (parse_selection sel avail = .error .emptySel ↔
      ((∀ p ∈ selParts sel, badToken p = false) ∧
        avail.filter (fun x => (selParts sel).any (fun p => tokenCovers p x)) = ∅)) ∧
    (parse_selection sel avail = .error .malformed ↔
      ∃ p ∈ selParts sel, badToken p = true) := by
  rw [parse_selection, if_neg hne]
  by_cases hb : ∃ p ∈ selParts sel, badToken p = true
  · rw [foldSel_bad (selParts sel) ∅ hb]
    constructor
    · constructor
      · intro h
        have h2 : (Except.error .malformed : Except SelError (List Int)) =
            .error .emptySel := h
        injection h2 with h3
        exact absurd h3 (by decide)
      · rintro ⟨hgood, -⟩
        obtain ⟨p, hp, hbad⟩ := hb
        rw [hgood p hp] at hbad
        exact absurd hbad (by simp)
    · exact ⟨fun _ => hb, fun _ => rfl⟩
  · have hgood : ∀ p ∈ selParts sel, badToken p = false := by
      intro p hp
      cases hbt : badToken p with
      | false => rfl
      | true => exact absurd ⟨p, hp, hbt⟩ hb
    rw [foldSel_good (selParts sel) ∅ hgood, Finset.empty_union]
    have hred : (match (Except.ok (avail.filter
          (fun x => (selParts sel).any (fun p => tokenCovers p x))) :
            Except SelError (Finset Int)) with
        | .error e => (.error e : Except SelError (List Int))
        | .ok chosen => if chosen = ∅ then .error .emptySel else .ok (pySorted chosen)) =
        if avail.filter (fun x => (selParts sel).any (fun p => tokenCovers p x)) = ∅ then
          .error .emptySel
        else .ok (pySorted (avail.filter
          (fun x => (selParts sel).any (fun p => tokenCovers p x)))) := rfl
    rw [hred]
    by_cases hF : avail.filter (fun x => (selParts sel).any (fun p => tokenCovers p x)) = ∅
    · rw [if_pos hF]
      exact ⟨⟨fun _ => ⟨hgood, hF⟩, fun _ => rfl⟩,
        ⟨fun h => absurd (Except.error.inj h) (by decide), fun hex => absurd hex hb⟩⟩
    · rw [if_neg hF]
      exact ⟨⟨fun h => Except.noConfusion h, fun hand => absurd hand.2 hF⟩,
        ⟨fun h => Except.noConfusion h, fun hex => absurd hex hb⟩⟩

/-- Witness for `c6_selection_errors`: the claim's own example
`parse("99", {1,2,3})` raises the empty-selection error. -/
theorem c6_selection_errors_witness :
    parse_selection "99".toList ({1, 2, 3} : Finset Int) = .error .emptySel :=
  (c6_selection_errors "99".toList {1, 2, 3} (by decide)).1.mpr ⟨by decide, by decide⟩

/-! ### Helper lemmas for the segmenter (C3) -/

/-- Shape of a successful bracket match: the text starts with `[`, a
nonempty digit run, `]`, then the rest. -/
theorem parseBracket_spec {l : List Char} {n : Nat} {r : List Char}
    (h : parseBracket l = some (n, r)) :
    ∃ ds, ds ≠ [] ∧ (∀ c ∈ ds, c.isDigit = true) ∧ l = '[' :: (ds ++ ']' :: r) ∧
      n = digitsValC ds := by
  cases l with
  | nil => simp [parseBracket] at h
  | cons c ts =>
    rw [parseBracket] at h
    split at h
    · rename_i hcond
      obtain ⟨hc, htw, hdw⟩ := hcond
      injection h with h'
      obtain ⟨hn, hr⟩ := Prod.ext_iff.mp h'
      obtain ⟨y, ys, hy⟩ : ∃ y ys, ts.dropWhile Char.isDigit = y :: ys := by
        cases hd : ts.dropWhile Char.isDigit with
        | nil => rw [hd] at hdw; simp at hdw
        | cons y ys => exact ⟨y, ys, rfl⟩
      have hy' : y = ']' := by
        rw [hy] at hdw
        simpa using hdw
      have hys : ys = r := by
        rw [hy] at hr
        exact hr
      refine ⟨ts.takeWhile Char.isDigit, htw,
        fun d hd => List.mem_takeWhile_imp hd, ?_, hn.symm⟩
      rw [hc]
      have hsplit : ts.takeWhile Char.isDigit ++ ']' :: r = ts := by
        rw [← hys, ← hy', ← hy, List.takeWhile_append_dropWhile]
      rw [hsplit]
    · exact absurd h (by simp)

/-- A text without a bracket match anywhere has no block at the start and
none after any newline. -/
theorem findBracket_none {t : List Char} (h : findBracket t = none) :
    parseBracket t = none ∧ countNL t = 0 := by
  induction t with
  | nil => exact ⟨rfl, rfl⟩
  | cons c ts ih =>
    rw [findBracket] at h
    cases hpb : parseBracket (c :: ts) with
    | some q => rw [hpb] at h; exact absurd h (by simp)
    | none =>
      rw [hpb] at h
      have h2 : (findBracket ts).map (fun q => (c :: q.1, q.2.1, q.2.2)) = none := h
      cases hfb : findBracket ts with
      | some q => rw [hfb] at h2; exact Option.noConfusion h2
      | none =>
        obtain ⟨hpb2, hcnt⟩ := ih hfb
        refine ⟨rfl, ?_⟩
        rw [countNL, hcnt, hpb2]
        simp

/-- When the leftmost match starts at the head, the prefix is empty and the
head itself matches. -/
theorem findBracket_nil_prefix {t : List Char} {n : Nat} {r : List Char}
    (h : findBracket t = some ([], n, r)) : parseBracket t = some (n, r) := by
  cases t with
  | nil => simp [findBracket] at h
  | cons c ts =>
    rw [findBracket] at h
    cases hpb : parseBracket (c :: ts) with
    | some q =>
      rw [hpb] at h
      have h2 : (([] : List Char), q.1, q.2) = (([] : List Char), n, r) :=
        Option.some.inj h
      have h3 : (q.1, q.2) = (n, r) := congrArg Prod.snd h2
      exact congrArg some (by rw [show q = (q.1, q.2) from rfl, h3])
    | none =>
      rw [hpb] at h
      cases hfb : findBracket ts with
      | none => rw [hfb] at h; exact Option.noConfusion h
      | some q =>
        rw [hfb] at h
        have h2 := Option.some.inj h
        have h3 : c :: q.1 = [] := congrArg (fun p => p.1) h2
        simp at h3

/-- When the leftmost match has a nonempty prefix, the head of the text
itself does not match. -/
theorem findBracket_cons_prefix {t : List Char} {p : List Char} {n : Nat} {r : List Char}
    (h : findBracket t = some (p, n, r)) (hp : p ≠ []) :
    parseBracket t = none := by
  cases t with
  | nil => simp [findBracket] at h
  | cons c ts =>
    rw [findBracket] at h
    cases hpb : parseBracket (c :: ts) with
    | some q =>
      rw [hpb] at h
      have h2 := Option.some.inj h
      have h3 : ([] : List Char) = p := congrArg (fun z => z.1) h2
      exact absurd h3.symm hp
    | none => rfl

/-- The step equation of `findBracket` when the head does not match. -/
theorem findBracket_cons_step {c : Char} {ts : List Char}
    (hpb : parseBracket (c :: ts) = none) :
    findBracket (c :: ts) = (findBracket ts).map (fun q => (c :: q.1, q.2.1, q.2.2)) := by
  rw [findBracket, hpb]

/-- Newline-block counting ignores a newline-free prefix. -/
theorem countNL_append_no_nl {xs r : List Char} (hxs : ∀ x ∈ xs, x ≠ '\n') :
    countNL (xs ++ r) = countNL r := by
  induction xs with
  | nil => rw [List.nil_append]
  | cons x zs ih =>
    rw [List.cons_append, countNL]
    rw [ih (fun z hz => hxs z (List.mem_cons_of_mem x hz))]
    have hx : ¬ (x = '\n' ∧ (parseBracket (zs ++ r)).isSome = true) :=
      fun hand => hxs x (List.mem_cons_self _ _) hand.1
    rw [if_neg hx, Nat.zero_add]

/-- The block count of a text whose leftmost bracket match sits at a
line-like position: one for that match plus the newline-blocks of the text
after it.  The minimality of the leftmost match localizes every counted
block. -/
theorem countBlocks_of_findBracket {t : List Char} {n : Nat} {rest : List Char}
    (p : List Char) (h : findBracket t = some (p, n, rest))
    (hal : p = [] ∨ p.getLast? = some '\n') :
    countBlocks t = 1 + countNL rest := by
  induction t generalizing p with
  | nil => simp [findBracket] at h
  | cons c ts ih =>
    cases hpb : parseBracket (c :: ts) with
    | some q =>
      have hfb0 : findBracket (c :: ts) = some (([] : List Char), q.1, q.2) := by
        rw [findBracket, hpb]
      rw [hfb0] at h
      have h3 := Option.some.inj h
      have h4 : (q.1, q.2) = (n, rest) := congrArg Prod.snd h3
      have hq : parseBracket (c :: ts) = some (n, rest) := by
        rw [hpb, show q = (q.1, q.2) from rfl, h4]
      obtain ⟨ds, hds, hdig, hshape, -⟩ := parseBracket_spec hq
      injection hshape with hc hts
      rw [countBlocks, hq, if_pos (show (some (n, rest)).isSome = true from rfl)]
      congr 1
      rw [countNL]
      have hcn : ¬ (c = '\n' ∧ (parseBracket ts).isSome = true) := by
        intro hand
        exact absurd (hc.symm.trans hand.1) (by decide)
      rw [if_neg hcn, hts, show ds ++ ']' :: rest = (ds ++ [']']) ++ rest by simp]
      rw [countNL_append_no_nl]
      · rw [Nat.zero_add]
      · intro x hx
        rw [List.mem_append] at hx
        rcases hx with hx | hx
        · intro hxn
          have hd := hdig x hx
          rw [hxn] at hd
          exact absurd hd (by decide)
        · rw [List.mem_singleton] at hx
          rw [hx]
          decide
    | none =>
      rw [findBracket_cons_step hpb] at h
      cases hfb : findBracket ts with
      | none => rw [hfb] at h; exact Option.noConfusion h
      | some q =>
        rw [hfb] at h
        have h2 := Option.some.inj h
        have hp : c :: q.1 = p := congrArg (fun z => z.1) h2
        have hn : q.2.1 = n := congrArg (fun z => z.2.1) h2
        have hr : q.2.2 = rest := congrArg (fun z => z.2.2) h2
        have hal2 : (c :: q.1).getLast? = some '\n' := by
          rcases hal with h0 | h0
          · rw [← hp] at h0; exact absurd h0 (by simp)
          · rw [← hp] at h0; exact h0
        have hfb' : findBracket ts = some (q.1, n, rest) := by
          rw [hfb]
          exact congrArg some (by rw [show q = (q.1, q.2.1, q.2.2) from rfl, hn, hr])
        rw [countBlocks, hpb, if_neg (by simp), Nat.zero_add, countNL]
        by_cases hq1 : q.1 = []
        · have hc : c = '\n' := by
            rw [hq1] at hal2
            simpa using hal2
          have hfb2 : findBracket ts = some (([] : List Char), n, rest) := by
            rw [hfb']
            exact congrArg some (by rw [hq1])
          have hpbts : parseBracket ts = some (n, rest) := findBracket_nil_prefix hfb2
          rw [if_pos ⟨hc, by rw [hpbts]; rfl⟩]
          congr 1
          have hih := ih q.1 hfb' (Or.inl hq1)
          have hcb : countBlocks ts = 1 + countNL ts := by
            rw [countBlocks, hpbts,
              if_pos (show (some (n, rest)).isSome = true from rfl)]
          omega
        · have hal3 : q.1.getLast? = some '\n' := by
            obtain ⟨d, ds, hdds⟩ : ∃ d ds, q.1 = d :: ds := by
              cases hqq : q.1 with
              | nil => exact absurd hqq hq1
              | cons d ds => exact ⟨d, ds, rfl⟩
            rw [hdds] at hal2 ⊢
            rw [List.getLast?_cons_cons] at hal2
            exact hal2
          have hpbts : parseBracket ts = none := findBracket_cons_prefix hfb' hq1
          have hcn : ¬ (c = '\n' ∧ (parseBracket ts).isSome = true) := by
            intro hand
            rw [hpbts] at hand
            exact absurd hand.2 (by simp)
          rw [if_neg hcn, Nat.zero_add]
          have hih := ih q.1 hfb' (Or.inr hal3)
          have hcb : countBlocks ts = countNL ts := by
            rw [countBlocks, hpbts]
            simp
          omega

/-- `findBracket` skips a non-matching head. -/
theorem findBracket_cons_ne {c : Char} {ts : List Char} (hc : c ≠ '[') :
    findBracket (c :: ts) = (findBracket ts).map (fun q => (c :: q.1, q.2.1, q.2.2)) := by
  have hpb : parseBracket (c :: ts) = none := by
    rw [parseBracket, if_neg (fun hand => hc hand.1)]
  exact findBracket_cons_step hpb

/-- `findBracket` takes a match at the head. -/
theorem findBracket_head_some {l : List Char} {n : Nat} {r : List Char}
    (hpb : parseBracket l = some (n, r)) : findBracket l = some ([], n, r) := by
  cases l with
  | nil => rw [parseBracket] at hpb; exact Option.noConfusion hpb
  | cons c ts => rw [findBracket, hpb]

/-- The capture stops at a position satisfying the lookahead. -/
theorem takeBody_lookahead (l : List Char) : lookAheadB ((takeBody l).2) = true := by
  induction l with
  | nil => rfl
  | cons c ts ih =>
    rw [takeBody]
    split
    · rename_i h
      exact h
    · exact ih

/-- The minimality of the capture means it crosses no newline-block start:
the newline-block count is preserved down to the lookahead position. -/
theorem takeBody_countNL (l : List Char) : countNL l = countNL ((takeBody l).2) := by
  induction l with
  | nil => rfl
  | cons c ts ih =>
    rw [takeBody]
    split
    · rfl
    · rename_i hla
      rw [countNL]
      have hcn : ¬ (c = '\n' ∧ (parseBracket ts).isSome = true) := by
        intro hand
        apply hla
        obtain ⟨hc, hpb⟩ := hand
        subst hc
        simp [lookAheadB, hpb]
      rw [if_neg hcn, Nat.zero_add]
      exact ih

/-- A lookahead position is never itself a bracket match. -/
theorem lookAheadB_parseBracket {r : List Char} (h : lookAheadB r = true) :
    parseBracket r = none := by
  cases r with
  | nil => rfl
  | cons c rr =>
    by_cases hc : c = '['
    · subst hc
      simp [lookAheadB] at h
    · rw [parseBracket, if_neg (fun hand => hc hand.1)]

/-- From a lookahead position, the next leftmost bracket match (if any)
again sits right after a newline: the recursion preserves alignment. -/
theorem lookAheadB_aligned {r : List Char} (h : lookAheadB r = true) :
    alignedB r = true := by
  simp only [lookAheadB, Bool.or_eq_true, Bool.and_eq_true, List.isEmpty_iff,
    decide_eq_true_eq] at h
  rcases h with ((⟨ht3, hpb3⟩ | ⟨ht1, hpb1⟩) | hnil) | hnl
  · obtain ⟨d, hd⟩ : ∃ d, r = '\n' :: '\\' :: '\n' :: d := by
      refine ⟨r.drop 3, ?_⟩
      conv_lhs => rw [← List.take_append_drop 3 r]
      rw [ht3]
      rfl
    subst hd
    have hpb3' : (parseBracket d).isSome = true := hpb3
    obtain ⟨q, hq⟩ := Option.isSome_iff_exists.mp hpb3'
    have hq2 : parseBracket d = some (q.1, q.2) := by rw [hq]
    rw [alignedB, findBracket_cons_ne (by decide), findBracket_cons_ne (by decide),
      findBracket_cons_ne (by decide), findBracket_head_some hq2]
    rfl
  · obtain ⟨d, hd⟩ : ∃ d, r = '\n' :: d := by
      refine ⟨r.drop 1, ?_⟩
      conv_lhs => rw [← List.take_append_drop 1 r]
      rw [ht1]
      rfl
    subst hd
    have hpb1' : (parseBracket d).isSome = true := hpb1
    obtain ⟨q, hq⟩ := Option.isSome_iff_exists.mp hpb1'
    have hq2 : parseBracket d = some (q.1, q.2) := by rw [hq]
    rw [alignedB, findBracket_cons_ne (by decide), findBracket_head_some hq2]
    rfl
  · subst hnil
    rfl
  · subst hnl
    rfl

/-- The capture never grows the text. -/
theorem takeBody_len (l : List Char) : (takeBody l).2.length ≤ l.length := by
  induction l with
  | nil => simp [takeBody]
  | cons c ts ih =>
    rw [takeBody]
    split
    · simp
    · exact Nat.le_trans ih (by simp)

/-- A bracket match consumes at least the three characters of `[d]`. -/
theorem findBracket_len {t p : List Char} {n : Nat} {r : List Char}
    (h : findBracket t = some (p, n, r)) : r.length + 3 ≤ t.length := by
  induction t generalizing p with
  | nil => simp [findBracket] at h
  | cons c ts ih =>
    cases hpb : parseBracket (c :: ts) with
    | some q =>
      have hfb0 : findBracket (c :: ts) = some (([] : List Char), q.1, q.2) := by
        rw [findBracket, hpb]
      rw [hfb0] at h
      have h3 := Option.some.inj h
      have h4 : (q.1, q.2) = (n, r) := congrArg Prod.snd h3
      have hq : parseBracket (c :: ts) = some (n, r) := by
        rw [hpb, show q = (q.1, q.2) from rfl, h4]
      obtain ⟨ds, hds, -, hshape, -⟩ := parseBracket_spec hq
      have hlen : (c :: ts).length = ds.length + r.length + 2 := by
        rw [hshape]
        simp
        omega
      have hpos : 0 < ds.length := List.length_pos.mpr hds
      omega
    | none =>
      rw [findBracket_cons_step hpb] at h
      cases hfb : findBracket ts with
      | none => rw [hfb] at h; exact Option.noConfusion h
      | some q =>
        rw [hfb] at h
        have h2 := Option.some.inj h
        have hn : q.2.1 = n := congrArg (fun z => z.2.1) h2
        have hr : q.2.2 = r := congrArg (fun z => z.2.2) h2
        have hfb' : findBracket ts = some (q.1, n, r) := by
          rw [hfb]
          exact congrArg some (by rw [show q = (q.1, q.2.1, q.2.2) from rfl, hn, hr])
        have hih := ih hfb'
        simp only [List.length_cons]
        omega

/-- The `finditer` loop yields exactly one pair per block, provided the
leftmost match is aligned (alignment is then preserved by the recursion). -/
theorem scanRefsF_count : ∀ (fuel : Nat) (t : List Char), t.length ≤ fuel →
    alignedB t = true → (scanRefsF fuel t).length = countBlocks t := by
  intro fuel
  induction fuel with
  | zero =>
    intro t hlen _
    have ht : t = [] := List.length_eq_zero.mp (Nat.le_zero.mp hlen)
    subst ht
    rfl
  | succ fuel ih =>
    intro t hlen hal
    cases hfb : findBracket t with
    | none =>
      have hred : scanRefsF (fuel + 1) t = [] := by
        rw [scanRefsF, hfb]
      obtain ⟨hpb, hcnt⟩ := findBracket_none hfb
      rw [hred, countBlocks, hpb, hcnt]
      simp
    | some trip =>
      have hred : scanRefsF (fuel + 1) t =
          (trip.2.1, pyStrip (takeBody trip.2.2).1) ::
            scanRefsF fuel (takeBody trip.2.2).2 := by
        rw [scanRefsF, hfb]
      rw [hred, List.length_cons]
      have htrip : findBracket t = some (trip.1, trip.2.1, trip.2.2) := by
        rw [hfb]
      have hal2 : trip.1 = [] ∨ trip.1.getLast? = some '\n' := by
        rw [alignedB, hfb] at hal
        have hal3 : (trip.1.isEmpty || decide (trip.1.getLast? = some '\n')) = true := hal
        rw [Bool.or_eq_true] at hal3
        rcases hal3 with h0 | h0
        · exact Or.inl (List.isEmpty_iff.mp h0)
        · exact Or.inr (of_decide_eq_true h0)
      rw [countBlocks_of_findBracket trip.1 htrip hal2]
      have hlen2 : (takeBody trip.2.2).2.length ≤ fuel := by
        have h1 := takeBody_len trip.2.2
        have h2 := findBracket_len htrip
        omega
      have hla := takeBody_lookahead trip.2.2
      rw [ih (takeBody trip.2.2).2 hlen2 (lookAheadB_aligned hla)]
      have hpb2 := lookAheadB_parseBracket hla
      have hcb2 : countBlocks (takeBody trip.2.2).2 = countNL (takeBody trip.2.2).2 := by
        rw [countBlocks, hpb2]
        simp
      have hnl := takeBody_countNL trip.2.2
      omega

/-- **C3.** On a valid segmenter input made of bracketed-number blocks —
formalized as: the leftmost `\[\d+\]` occurrence, if any, sits at a
line-like position (text start or right after a newline) — the segmenter
returns exactly `k` `(ref_no, raw_text)` pairs, where `k` is the number of
bracketed integers at line-like positions, in document order with each
`ref_no` read from its brackets and each `raw_text` the lazily captured,
stripped text up to the next boundary or the end. -/
theorem c3_segmenter_block_count (t : List Char) (h : alignedB t = true) :
    (split_numbered_refs t).length = countBlocks t :=
  scanRefsF_count t.length t le_rfl h

/-- Witness for `c3_segmenter_block_count`: a two-block bibliography. -/
theorem c3_segmenter_block_count_witness :
    alignedB "[1] Alpha, “A.”\n[2] Beta, “B.”".toList = true ∧
    (split_numbered_refs "[1] Alpha, “A.”\n[2] Beta, “B.”".toList).length =
      countBlocks "[1] Alpha, “A.”\n[2] Beta, “B.”".toList ∧
    countBlocks "[1] Alpha, “A.”\n[2] Beta, “B.”".toList = 2 :=
  ⟨by decide, c3_segmenter_block_count _ (by decide), by decide⟩
